import Mathlib

/-!
# Verification development for the `deck` package

A shallow embedding of `deck.go`: a slice of cards is a `List Card`, the Go `int`
behind `Suit` and `Value` is an `Int`, arithmetic on `int` wraps to 64 bits, and
an option `func([]Card) []Card` is a function `List Card → List Card`.
-/

namespace Deck

/-! ## Data model -/

/-- `type Suit int`. -/
abbrev Suit := Int

/-- `Spades Suit = iota`. -/
def Spades : Suit := 0
/-- Second suit constant. -/
def Diamonds : Suit := 1
/-- Third suit constant. -/
def Clubs : Suit := 2
/-- Fourth suit constant. -/
def Hearts : Suit := 3
/-- Fifth suit constant, not part of `suits`. -/
def Joker : Suit := 4

/-- `var suits = [4]Suit{Spades, Diamonds, Clubs, Hearts}`. -/
def suits : List Suit := [Spades, Diamonds, Clubs, Hearts]

/-- `type Value int`. -/
abbrev Value := Int

/-- `Ace Value = iota + 1`. -/
def Ace : Value := 1
/-- Rank constant 2. -/
def Two : Value := 2
/-- Rank constant 3. -/
def Three : Value := 3
/-- Rank constant 4. -/
def Four : Value := 4
/-- Rank constant 5. -/
def Five : Value := 5
/-- Rank constant 6. -/
def Six : Value := 6
/-- Rank constant 7. -/
def Seven : Value := 7
/-- Rank constant 8. -/
def Eight : Value := 8
/-- Rank constant 9. -/
def Nine : Value := 9
/-- Rank constant 10. -/
def Ten : Value := 10
/-- Rank constant 11. -/
def Jack : Value := 11
/-- Rank constant 12. -/
def Queen : Value := 12
/-- Rank constant 13. -/
def King : Value := 13

/-- `type Card struct { Value; Suit }`; equality is field-wise, as Go's `==` on structs. -/
structure Card where
  /-- Embedded `Value` field. -/
  Value : Value
  /-- Embedded `Suit` field. -/
  Suit : Suit
  deriving DecidableEq, Repr

/-! ## Construction -/

/-- The body of `New`: the two nested loops build the deck by `append`, then every
option is applied in the order given. -/
def New (opts : List (List Card → List Card)) : List Card :=
  let deck : List Card := suits.foldl (fun deck suit =>
    (List.range' 1 13).foldl (fun deck value => deck ++ [⟨(value : Int), suit⟩]) deck) []
  opts.foldl (fun deck opt => opt deck) deck

/-- The canonical deck in the spec's words: for each of the four standard suits, in the
order Spades, Diamonds, Clubs, Hearts, the ranks Ace through King in ascending order. -/
def canonicalDeck : List Card :=
  [Spades, Diamonds, Clubs, Hearts].flatMap (fun s =>
    [Ace, Two, Three, Four, Five, Six, Seven, Eight, Nine, Ten, Jack, Queen, King].map
      (fun v => ⟨v, s⟩))

/-! ## Options -/

/-- `Filter(fn)`: the loop appends to `ret` every card for which `fn` is false. -/
def Filter (fn : Card → Bool) : List Card → List Card :=
  fun cards => cards.foldl (fun ret card => if !fn card then ret ++ [card] else ret) []

/-- `NumDecks(n)`: `for i := 0; i < n; i++` runs `n.toNat` times (not at all for
`n ≤ 0`), each time appending the cards of the input one by one to `ret`. -/
def NumDecks (n : Int) : List Card → List Card :=
  fun cards => (List.range n.toNat).foldl
    (fun ret _ => cards.foldl (fun ret card => ret ++ [card]) ret) []

/-- `WithJokers(n)`: the loop appends `Card{Suit: Joker}` (whose `Value` is the zero
value) `n.toNat` times. -/
def WithJokers (n : Int) : List Card → List Card :=
  fun cards => (List.range n.toNat).foldl (fun cards _ => cards ++ [⟨0, Joker⟩]) cards

/-- `CleanCut`: `n := len(cards) / 2; append(cards[n:], cards[:n]...)`. The source and
the destination of the `append` never overlap, so the result is the list append. -/
def CleanCut (cards : List Card) : List Card :=
  let n := cards.length / 2
  cards.drop n ++ cards.take n

/-! ## Sorting -/

/-- A Go `int` result: the integer `x` reduced to the signed 64-bit range. -/
def wrapInt (x : Int) : Int := (x + 2 ^ 63) % 2 ^ 64 - 2 ^ 63

/-- The expression `(13*int(c.Suit)) + int(c.Value)` that `less` compares, in `int`
arithmetic. -/
def sortKey (c : Card) : Int := wrapInt (wrapInt (13 * c.Suit) + c.Value)

/-- `less(cards)`: the closure reads the slice being sorted, so it is a function of the
slice's current contents and two indices. Both indices are in range at every call the
sort makes; the last branch stands for Go's index panic and is never reached. -/
def less (cards : List Card) : Nat → Nat → Bool :=
  fun i j =>
    match cards[i]?, cards[j]? with
    | some a, some b => decide (sortKey a < sortKey b)
    | _, _ => false

/-- The swapper of a slice: `xs[i], xs[j] = xs[j], xs[i]`. The sort calls it with both
indices in range; the last branch stands for Go's index panic and is never reached. -/
def swap {α : Type} (xs : List α) (i j : Nat) : List α :=
  match xs[i]?, xs[j]? with
  | some a, some b => (xs.set i b).set j a
  | _, _ => xs

/-- Inner loop of the library's insertion sort, started at `j`:
`for ; j > 0 && less(j, j-1); j-- { swap(j, j-1) }`. -/
def insertionStep {α : Type} (less : List α → Nat → Nat → Bool) : Nat → List α → List α
  | 0, xs => xs
  | j + 1, xs =>
    if less xs (j + 1) j then insertionStep less j (swap xs (j + 1) j) else xs

/-- Modelled from the spec: `sort.SliceStable` belongs to Go's standard library and is
not part of the repository; the spec asks for a stable sort driven by the less-function.
It is modelled by the library's insertion sort over the whole slice,
`for i := 1; i < n; i++ { for j := i; j > 0 && less(j, j-1); j-- { swap(j, j-1) } }`,
an in-place stable sort that moves cards by swaps only. This is what the library runs on
a slice of at most 20 elements (`customSort_run_small`); a longer slice it insertion-sorts
in blocks of 20 and merges (`stable_func`), which for a strict weak ordering such as
`less` yields the same arrangement, the one stable sorted arrangement
(`stable_sort_unique`). For any other comparator the algorithm itself is `stable_func`. -/
def SliceStable {α : Type} (xs : List α) (less : List α → Nat → Nat → Bool) : List α :=
  (List.range' 1 (xs.length - 1)).foldl (fun xs i => insertionStep less i xs) xs

/-- `DefaultSort`: `sort.SliceStable(cards, less(cards)); return cards`. -/
def DefaultSort (cards : List Card) : List Card :=
  SliceStable cards less

/-- `DefaultSort` run on the cards paired with their input positions: the same sort,
with a less-function that looks at the cards only, so that every card of the result
carries the position it came from. -/
def DefaultSort.tracked (cards : List Card) : List (Nat × Card) :=
  SliceStable cards.enum (fun cur => less (cur.map Prod.snd))

/-! ## Functional form of the sort -/

/-- The less-function of a key on the slice's current contents: `less` is
`lessBy sortKey`. -/
def lessBy {α : Type} (key : α → Int) (xs : List α) : Nat → Nat → Bool :=
  fun i j =>
    match xs[i]?, xs[j]? with
    | some a, some b => decide (key a < key b)
    | _, _ => false

/-- What one run of the inner loop does to the sorted prefix, the prefix written last
card first: `x` passes every card whose key is larger and stops before the first card
whose key is not. -/
def insertBack {α : Type} (key : α → Int) (x : α) : List α → List α
  | [] => [x]
  | y :: r => if key x < key y then y :: insertBack key x r else x :: y :: r

/-- The sorted prefix after the outer loop has taken every card of `xs`, last card
first. -/
def sortedBack {α : Type} (key : α → Int) (xs : List α) : List α :=
  xs.foldl (fun acc x => insertBack key x acc) []

/-- Order of position-tagged cards: by key, and by input position among equal keys. -/
def trackedLt (a b : Nat × Card) : Prop :=
  sortKey a.2 < sortKey b.2 ∨ (sortKey a.2 = sortKey b.2 ∧ a.1 < b.1)

instance (a b : Nat × Card) : Decidable (trackedLt a b) := by
  unfold trackedLt
  infer_instance

/-- The signed 64-bit range of a Go `int`. -/
def inInt64 (x : Int) : Prop := -2 ^ 63 ≤ x ∧ x < 2 ^ 63

instance (x : Int) : Decidable (inInt64 x) := by
  unfold inInt64
  infer_instance

/-- The key of `c` is computed without overflow: both `13*Suit` and the sum are in the
range of `int`. Every card with a suit in 0..4 and a rank in 0..13 is of this kind. -/
def noOverflow (c : Card) : Prop := inInt64 (13 * c.Suit) ∧ inInt64 (13 * c.Suit + c.Value)

instance (c : Card) : Decidable (noOverflow c) := by
  unfold noOverflow
  infer_instance

/-! ## Custom sort, cut, shuffle, display -/

/-- `CustomSort(less)`: `sort.SliceStable(cards, less(cards)); return cards`. The
argument is what the factory's closure answers on the slice's current contents; a
factory that also looks at the slice it is handed is `CustomSort (f cards) cards`.
This form takes a comparator without effects and sorts as `DefaultSort` does;
`CustomSort.run` is the function for any comparator, on the library's algorithm. -/
def CustomSort (less : List Card → Nat → Nat → Bool) : List Card → List Card :=
  fun cards => SliceStable cards less

/-- Modelled from the spec: `rand.Intn` belongs to Go's standard library and is not part
of the repository. It panics (`none`) when `n ≤ 0` and otherwise returns a number of
`[0, n)` picked by the random source: `draw` is the number the source comes up with,
reduced to the interval. -/
def Intn (draw : Nat) (n : Int) : Option Int :=
  if n ≤ 0 then none else some ((draw : Int) % n)

/-- `Cut`: `n := rand.Intn(len(cards)); append(cards[n:], cards[:n]...)`, with the draw
of the random source as a parameter; `none` is a panic. -/
def Cut (draw : Nat) (cards : List Card) : Option (List Card) :=
  (Intn draw cards.length).map (fun n => cards.drop n.toNat ++ cards.take n.toNat)

/-- The closure `Shuffle` hands to `rand.Shuffle`:
`cards[i], cards[j] = cards[j], cards[i]`; an index out of range panics (`none`). -/
def swapCards (cards : List Card) (i j : Nat) : Option (List Card) :=
  match cards[i]?, cards[j]? with
  | some a, some b => some ((cards.set i b).set j a)
  | _, _ => none

/-- Modelled from the spec: `rand.Shuffle(n, swap)` belongs to Go's standard library and
is not part of the repository. For `n ≥ 0` it runs
`for i := n-1; i > 0; i-- { j := a number of [0, i] from the source; swap(i, j) }`;
`draws i` is the number the source comes up with at step `i`, reduced to `[0, i]`.
The first argument is the current `i`. -/
def randShuffle (draws : Nat → Nat) (swap : List Card → Nat → Nat → Option (List Card)) :
    Nat → List Card → Option (List Card)
  | 0, cards => some cards
  | i + 1, cards =>
    (swap cards (i + 1) (draws (i + 1) % (i + 2))).bind (randShuffle draws swap i)

/-- `Shuffle`: `rand.Shuffle(len(cards), swap); return cards`, with the draws of the
random source as a parameter (the seeding only selects them); `none` is a panic. -/
def Shuffle (draws : Nat → Nat) (cards : List Card) : Option (List Card) :=
  randShuffle draws swapCards (cards.length - 1) cards

/-- Modelled from the spec: `Value.String` is generated by `stringer` (the `go:generate`
line of `deck.go`) and the generated file is not part of the sources; it returns the
name of the rank constant, and `Value(n)` for a number that is no rank constant. -/
def Value.String (v : Value) : String :=
  match v with
  | 1 => "Ace"
  | 2 => "Two"
  | 3 => "Three"
  | 4 => "Four"
  | 5 => "Five"
  | 6 => "Six"
  | 7 => "Seven"
  | 8 => "Eight"
  | 9 => "Nine"
  | 10 => "Ten"
  | 11 => "Jack"
  | 12 => "Queen"
  | 13 => "King"
  | _ => "Value(" ++ toString v ++ ")"

/-- Modelled from the spec: `Suit.String` is generated by `stringer` and the generated
file is not part of the sources; it returns the name of the suit constant, and `Suit(n)`
for a number that is no suit constant. -/
def Suit.String (s : Suit) : String :=
  match s with
  | 0 => "Spades"
  | 1 => "Diamonds"
  | 2 => "Clubs"
  | 3 => "Hearts"
  | 4 => "Joker"
  | _ => "Suit(" ++ toString s ++ ")"

/-- `Card.String`: `"Joker"` for the Joker suit, otherwise
`fmt.Sprintf("%s of %s", c.Value.String(), c.Suit.String())`. -/
def Card.String (c : Card) : String :=
  if c.Suit = Joker then "Joker" else Value.String c.Value ++ " of " ++ Suit.String c.Suit

/-! ## The library's stable sort, and a comparator with effects -/

/-- A comparator as Go allows it. `make` is the factory call `less(cards)`: it sees the
slice, sets up the closure's own state, may write to the slice and may panic (`none`).
`less` is the closure it returns, called with its state, the slice's current contents
and two indices: it answers, may change its state, may write to the slice, may panic. -/
structure Comparator (σ : Type) where
  /-- The factory call. -/
  make : List Card → Option (σ × List Card)
  /-- One call of the less-function. -/
  less : σ → List Card → Nat → Nat → Option (Bool × σ × List Card)

/-- The loop `for lo < hi { h := int(uint(lo+hi) >> 1); if probe(h) { lo = h + 1 } else
{ hi = h } }` of the three binary searches of `symMerge_func`; it returns `lo`. The probe
is a call of the less-function, so it carries the state and may panic. -/
def search {τ : Type} (probe : Nat → τ → Option (Bool × τ)) (lo hi : Nat) (st : τ) :
    Option (Nat × τ) :=
  if _h : lo < hi then
    match probe ((lo + hi) / 2) st with
    | none => none
    | some (true, st') => search probe ((lo + hi) / 2 + 1) hi st'
    | some (false, st') => search probe lo ((lo + hi) / 2) st'
  else some (lo, st)
termination_by hi - lo

/-- `data.Less(i, j)` on the state of the sort. -/
def callLess {σ : Type} (less : σ → List Card → Nat → Nat → Option (Bool × σ × List Card))
    (i j : Nat) (st : σ × List Card) : Option (Bool × (σ × List Card)) :=
  match less st.1 st.2 i j with
  | none => none
  | some (b, s, xs) => some (b, (s, xs))

/-- Inner loop of `insertionSort_func(data, a, b)`, started at `j`:
`for ; j > a && data.Less(j, j-1); j-- { data.Swap(j, j-1) }`. -/
def insertionInner {σ : Type}
    (less : σ → List Card → Nat → Nat → Option (Bool × σ × List Card)) (a : Nat) :
    Nat → σ × List Card → Option (σ × List Card)
  | 0, st => some st
  | j + 1, st =>
    if a < j + 1 then
      match callLess less (j + 1) j st with
      | none => none
      | some (true, (s, xs)) => insertionInner less a j (s, swap xs (j + 1) j)
      | some (false, st') => some st'
    else some st

/-- `insertionSort_func(data, a, b)`: `for i := a + 1; i < b; i++ { inner loop }`. -/
def insertionSort_func {σ : Type}
    (less : σ → List Card → Nat → Nat → Option (Bool × σ × List Card)) (a b : Nat)
    (st : σ × List Card) : Option (σ × List Card) :=
  (List.range' (a + 1) (b - (a + 1))).foldlM (fun st i => insertionInner less a i st) st

/-- `swapRange_func(data, a, b, n)`: `for i := 0; i < n; i++ { data.Swap(a+i, b+i) }`. -/
def swapRange_func (xs : List Card) (a b n : Nat) : List Card :=
  (List.range n).foldl (fun xs i => swap xs (a + i) (b + i)) xs

/-- The loop of `rotate_func` with its variables `i` and `j`:
`for i != j { if i > j { swapRange(m-i, m, j); i -= j } else { swapRange(m-i, m+j-i, i);
j -= i } }; swapRange(m-i, m, i)`. The library enters it with `i` and `j` positive; with
one of them zero and the other not Go's loop would not end, and the slice is returned as
it is. -/
def rotateLoop (m : Nat) (i j : Nat) (xs : List Card) : List Card :=
  if i = j then swapRange_func xs (m - i) m i
  else if j < i then
    if 0 < j then rotateLoop m (i - j) j (swapRange_func xs (m - i) m j) else xs
  else
    if 0 < i then rotateLoop m i (j - i) (swapRange_func xs (m - i) (m + j - i) i) else xs
termination_by i + j
decreasing_by all_goals omega

/-- `rotate_func(data, a, m, b)`: `i := m - a; j := b - m`, then the loop. -/
def rotate_func (xs : List Card) (a m b : Nat) : List Card :=
  rotateLoop m (m - a) (b - m) xs

/-- `symMerge_func(data, a, m, b)`, the library's in-place merge of `data[a:m]` and
`data[m:b]`: a binary search and a run of swaps when one side has one element, otherwise
a binary search for the split, a rotation and two recursive merges. -/
def symMerge_func {σ : Type}
    (less : σ → List Card → Nat → Nat → Option (Bool × σ × List Card)) (a m b : Nat)
    (st : σ × List Card) : Option (σ × List Card) :=
  if m - a = 1 then
    match search (fun h st => callLess less h a st) m b st with
    | none => none
    | some (i, (s, xs)) =>
      some (s, (List.range' a (i - 1 - a)).foldl (fun xs k => swap xs k (k + 1)) xs)
  else if b - m = 1 then
    match search (fun h st => (callLess less m h st).map (fun r => (!r.1, r.2))) a m st with
    | none => none
    | some (i, (s, xs)) =>
      some (s, (List.range' (i + 1) (m - i)).reverse.foldl (fun xs k => swap xs k (k - 1)) xs)
  else
    match search
        (fun c st => (callLess less ((a + b) / 2 + m - 1 - c) c st).map (fun r => (!r.1, r.2)))
        (if (a + b) / 2 < m then (a + b) / 2 + m - b else a)
        (if (a + b) / 2 < m then (a + b) / 2 else m) st with
    | none => none
    | some (start, (s, xs)) =>
      let xs₁ :=
        if start < m ∧ m < (a + b) / 2 + m - start then
          rotate_func xs start m ((a + b) / 2 + m - start)
        else xs
      match
        (if h : a < start ∧ start < (a + b) / 2 then
          symMerge_func less a start ((a + b) / 2) (s, xs₁)
        else some (s, xs₁)) with
      | none => none
      | some st₂ =>
        if h : (a + b) / 2 < (a + b) / 2 + m - start ∧ (a + b) / 2 + m - start < b then
          symMerge_func less ((a + b) / 2) ((a + b) / 2 + m - start) b st₂
        else some st₂
termination_by b - a
decreasing_by all_goals omega

/-- One pass of the merge loop of `stable_func` for a block size:
`a, b = 0, 2*blockSize; for b <= n { symMerge(a, a+blockSize, b); a = b; b += 2*blockSize };
if m := a + blockSize; m < n { symMerge(a, m, n) }`. The `k`-th round has
`a = 2*blockSize*k`, and there are `n / (2*blockSize)` rounds. -/
def mergePass {σ : Type}
    (less : σ → List Card → Nat → Nat → Option (Bool × σ × List Card)) (n blockSize : Nat)
    (st : σ × List Card) : Option (σ × List Card) :=
  match (List.range (n / (2 * blockSize))).foldlM
      (fun st k => symMerge_func less (2 * blockSize * k) (2 * blockSize * k + blockSize)
        (2 * blockSize * k + 2 * blockSize) st) st with
  | none => none
  | some st' =>
    if 2 * blockSize * (n / (2 * blockSize)) + blockSize < n then
      symMerge_func less (2 * blockSize * (n / (2 * blockSize)))
        (2 * blockSize * (n / (2 * blockSize)) + blockSize) n st'
    else some st'

/-- The merge loop of `stable_func`: `for blockSize < n { one pass; blockSize *= 2 }`.
The block size is 20 at the start, so it is never zero. -/
def mergeLoop {σ : Type}
    (less : σ → List Card → Nat → Nat → Option (Bool × σ × List Card)) (n blockSize : Nat)
    (st : σ × List Card) : Option (σ × List Card) :=
  if _h : 0 < blockSize ∧ blockSize < n then
    match mergePass less n blockSize st with
    | none => none
    | some st' => mergeLoop less n (2 * blockSize) st'
  else some st
termination_by n - blockSize
decreasing_by omega

/-- Modelled from the spec: `stable_func(data, n)` is the algorithm behind
`sort.SliceStable` in Go's standard library, which is not part of the repository; the
spec asks for a stable sort. Transcribed from the library: insertion sort of the blocks
of 20 (`a, b := 0, 20; for b <= n { insertionSort(a, b); a = b; b += 20 };
insertionSort(a, n)`, the `k`-th block starting at `20*k`), then the merge loop. -/
def stable_func {σ : Type}
    (less : σ → List Card → Nat → Nat → Option (Bool × σ × List Card)) (n : Nat)
    (st : σ × List Card) : Option (σ × List Card) :=
  match (List.range (n / 20)).foldlM
      (fun st k => insertionSort_func less (20 * k) (20 * k + 20) st) st with
  | none => none
  | some st₁ =>
    match insertionSort_func less (20 * (n / 20)) n st₁ with
    | none => none
    | some st₂ => mergeLoop less n 20 st₂

/-- `CustomSort(less)` for a comparator with effects:
`sort.SliceStable(cards, less(cards)); return cards`. The factory is called first, then
the library sorts the `len(cards)` cards with the closure; `none` is a panic. -/
def CustomSort.run {σ : Type} (f : Comparator σ) (cards : List Card) : Option (List Card) :=
  match f.make cards with
  | none => none
  | some st => (stable_func f.less cards.length st).map Prod.snd

/-- A comparator without effects as a `Comparator`: no state, the slice only read. -/
def Comparator.ofPure (less : List Card → Nat → Nat → Bool) : Comparator Unit where
  make := fun cards => some ((), cards)
  less := fun _ xs i j => some (less xs i j, (), xs)

theorem new_nil : New [] = canonicalDeck := by decide

theorem new_snoc (ts : List (List Card → List Card)) (t : List Card → List Card) :
    New (ts ++ [t]) = t (New ts) := by
  simp [New, List.foldl_append]

theorem foldl_snoc_eq (acc cards : List Card) :
    cards.foldl (fun ret card => ret ++ [card]) acc = acc ++ cards := by
  induction cards generalizing acc with
  | nil => simp
  | cons c cs ih => simp [ih]

theorem filter_loop (fn : Card → Bool) (acc cards : List Card) :
    cards.foldl (fun ret card => if !fn card then ret ++ [card] else ret) acc
      = acc ++ cards.filter (fun c => !fn c) := by
  induction cards generalizing acc with
  | nil => simp
  | cons c cs ih =>
    rw [List.foldl_cons, ih, List.filter_cons]
    cases h : fn c <;> simp

theorem filter_eq (fn : Card → Bool) (cards : List Card) :
    Filter fn cards = cards.filter (fun c => !fn c) := by
  unfold Filter
  rw [filter_loop]
  simp

theorem numDecks_loop (cards acc : List Card) (l : List Nat) :
    l.foldl (fun ret _ => cards.foldl (fun ret card => ret ++ [card]) ret) acc
      = acc ++ (List.replicate l.length cards).flatten := by
  induction l generalizing acc with
  | nil => simp
  | cons i l ih =>
    rw [List.foldl_cons, ih, foldl_snoc_eq]
    simp [List.replicate_succ]

theorem numDecks_eq (n : Nat) (cards : List Card) :
    NumDecks n cards = (List.replicate n cards).flatten := by
  unfold NumDecks
  rw [numDecks_loop]
  simp

theorem withJokers_loop (acc : List Card) (l : List Nat) :
    l.foldl (fun cards _ => cards ++ [(⟨0, Joker⟩ : Card)]) acc
      = acc ++ List.replicate l.length ⟨0, Joker⟩ := by
  induction l generalizing acc with
  | nil => simp
  | cons i l ih =>
    rw [List.foldl_cons, ih]
    simp [List.replicate_succ]

theorem withJokers_eq (n : Nat) (cards : List Card) :
    WithJokers n cards = cards ++ List.replicate n ⟨0, Joker⟩ := by
  unfold WithJokers
  rw [withJokers_loop]
  simp

theorem canonicalDeck_length : canonicalDeck.length = 52 := by decide

theorem new_single (t : List Card → List Card) : New [t] = t canonicalDeck := by
  rw [← new_nil]; exact new_snoc [] t

/-- C1: `New()` with no options is the 52-card deck in canonical order: the card at
index `13*s + (r-1)` is `(Value r, Suit s)` for the suit indices 0..3 (Spades, Diamonds,
Clubs, Hearts) and the ranks 1..13; the first card is (Ace, Spades), the last is
(King, Hearts), and no card is a Joker. -/
theorem new_is_canonical :
    (New []).length = 52 ∧
    (∀ s : Fin 4, ∀ r : Fin 13,
      (New [])[13 * s.val + r.val]? = some ⟨(r.val : Int) + 1, (s.val : Int)⟩) ∧
    (Spades = 0 ∧ Diamonds = 1 ∧ Clubs = 2 ∧ Hearts = 3) ∧
    (New []).head? = some ⟨Ace, Spades⟩ ∧
    (New []).getLast? = some ⟨King, Hearts⟩ ∧
    (∀ c ∈ New [], c.Suit ≠ Joker) ∧
    New [] = canonicalDeck := by
  refine ⟨by decide, by decide, by decide, by decide, by decide, by decide, by decide⟩

/-- C2: `New(t1, ..., tk)` is the left fold of function application over the options,
started from the canonical deck: `New() = canonical`, and `New(t1, ..., tk, t)` is `t`
applied to `New(t1, ..., tk)`. -/
theorem new_applies_options (opts : List (List Card → List Card)) :
    New opts = opts.foldl (fun deck opt => opt deck) canonicalDeck ∧
    New [] = canonicalDeck ∧
    (∀ t : List Card → List Card, New (opts ++ [t]) = t (New opts)) := by
  refine ⟨?_, new_nil, new_snoc opts⟩
  rw [← new_nil]; rfl

/-- C3: `Filter(p)(cs)` is the subsequence of `cs` of the cards for which `p` is false,
in their order and with their multiplicities; with `p = (Value == Two || Suit == Spades)`
on the canonical deck no Two and no Spade is left, and when `p` holds of every card the
result is empty. -/
theorem filter_removes_exactly (p : Card → Bool) (cs : List Card) :
    Filter p cs = cs.filter (fun c => !p c) ∧
    (Filter p cs).Sublist cs ∧
    (∀ c ∈ Filter p cs, p c = false) ∧
    (∀ c, p c = false → (Filter p cs).count c = cs.count c) ∧
    (∀ c ∈ New [Filter (fun c => c.Value == Two || c.Suit == Spades)],
      c.Value ≠ Two ∧ c.Suit ≠ Spades) ∧
    ((∀ c ∈ cs, p c = true) → Filter p cs = []) := by
  refine ⟨filter_eq p cs, ?_, ?_, ?_, ?_, ?_⟩
  · rw [filter_eq]; exact List.filter_sublist cs
  · intro c hc
    rw [filter_eq, List.mem_filter] at hc
    simpa using hc.2
  · intro c hc
    rw [filter_eq, List.count_filter]
    simp [hc]
  · intro c hc
    rw [new_single, filter_eq, List.mem_filter] at hc
    simpa using hc.2
  · intro h
    rw [filter_eq, List.filter_eq_nil_iff]
    intro c hc
    simp [h c hc]

/-- C4: for `n ≥ 0`, `NumDecks(n)(cs)` is `n` copies of `cs` one after the other, of
length `n * len(cs)`; one copy is `cs`, zero copies the empty sequence, and
`New(NumDecks(n))` has `52 * n` cards. -/
theorem numDecks_copies (n : Nat) (cs : List Card) :
    NumDecks n cs = (List.replicate n cs).flatten ∧
    (NumDecks n cs).length = n * cs.length ∧
    NumDecks 1 cs = cs ∧
    NumDecks 0 cs = [] ∧
    (New [NumDecks n]).length = 52 * n := by
  refine ⟨numDecks_eq n cs, ?_, ?_, ?_, ?_⟩
  · rw [numDecks_eq]; simp
  · simpa using numDecks_eq 1 cs
  · simpa using numDecks_eq 0 cs
  · rw [new_single, numDecks_eq]
    simp [canonicalDeck_length, Nat.mul_comm]

/-- C5: for `n ≥ 0`, `WithJokers(n)(cs)` is `cs` followed by `n` cards
`(Value 0, Suit Joker)`; `New(WithJokers(n))` has `52 + n` cards of which exactly `n`
are Jokers, also for `n = 53`, and `n = 0` changes nothing. -/
theorem withJokers_appends (n : Nat) (cs : List Card) :
    WithJokers n cs = cs ++ List.replicate n ⟨0, Joker⟩ ∧
    (WithJokers n cs).take cs.length = cs ∧
    (WithJokers n cs).drop cs.length = List.replicate n ⟨0, Joker⟩ ∧
    (New [WithJokers n]).length = 52 + n ∧
    (New [WithJokers n]).countP (fun c => c.Suit == Joker) = n ∧
    ((New [WithJokers 53]).length = 105 ∧
      (New [WithJokers 53]).countP (fun c => c.Suit == Joker) = 53) ∧
    WithJokers 0 cs = cs := by
  have hlen : ∀ m : Nat, (New [WithJokers m]).length = 52 + m := by
    intro m
    rw [new_single, withJokers_eq, List.length_append, canonicalDeck_length]
    simp
  have hcnt : ∀ m : Nat, (New [WithJokers m]).countP (fun c => c.Suit == Joker) = m := by
    intro m
    rw [new_single, withJokers_eq, List.countP_append]
    have h1 : canonicalDeck.countP (fun c => c.Suit == Joker) = 0 := by decide
    rw [h1, List.countP_replicate]
    simp
  refine ⟨withJokers_eq n cs, ?_, ?_, hlen n, hcnt n, ⟨hlen 53, hcnt 53⟩, ?_⟩
  · rw [withJokers_eq]; simp
  · rw [withJokers_eq]; simp
  · simpa using withJokers_eq 0 cs

/-- C6: `CleanCut(cs)` is `cs[k:]` followed by `cs[:k]` for `k = len(cs)/2`, the
rotation to the left by `k`, so the card at index `k` comes first; a sequence of length
0 or 1 is unchanged, and the canonical deck then starts with (Ace, Clubs), its card at
index 26. -/
theorem cleanCut_rotates (cs : List Card) :
    CleanCut cs = cs.drop (cs.length / 2) ++ cs.take (cs.length / 2) ∧
    CleanCut cs = cs.rotate (cs.length / 2) ∧
    (CleanCut cs)[0]? = cs[cs.length / 2]? ∧
    (cs.length ≤ 1 → CleanCut cs = cs) ∧
    (New [CleanCut])[0]? = some ⟨Ace, Clubs⟩ ∧
    (New [])[26]? = some ⟨Ace, Clubs⟩ := by
  refine ⟨rfl, ?_, ?_, ?_, ?_, by decide⟩
  · rw [List.rotate_eq_drop_append_take (Nat.div_le_self _ _)]; rfl
  · show (cs.drop (cs.length / 2) ++ cs.take (cs.length / 2))[0]? = _
    rcases Nat.eq_zero_or_pos cs.length with h | h
    · have : cs = [] := List.length_eq_zero.mp h
      subst this; rfl
    · have hk : cs.length / 2 < cs.length := Nat.div_lt_self h (by decide)
      rw [List.getElem?_append_left (by simp; omega)]
      simp
  · intro h
    have hk : cs.length / 2 = 0 := by omega
    show cs.drop (cs.length / 2) ++ cs.take (cs.length / 2) = cs
    rw [hk]; simp
  · rw [new_single]; decide

/-! ## The sort: from the loops to the functional form -/

theorem swap_adjacent {α : Type} (L : List α) (y x : α) (T : List α) :
    swap (L ++ y :: x :: T) (L.length + 1) L.length = L ++ x :: y :: T := by
  have h1 : (L ++ y :: x :: T)[L.length + 1]? = some x := by
    rw [List.getElem?_append_right (by omega)]
    simp
  have h2 : (L ++ y :: x :: T)[L.length]? = some y := by
    rw [List.getElem?_append_right (by omega)]
    simp
  unfold swap
  rw [h1, h2]
  simp [List.set_append]

theorem lessBy_adjacent {α : Type} (key : α → Int) (L : List α) (y x : α) (T : List α) :
    lessBy key (L ++ y :: x :: T) (L.length + 1) L.length = decide (key x < key y) := by
  have h1 : (L ++ y :: x :: T)[L.length + 1]? = some x := by
    rw [List.getElem?_append_right (by omega)]
    simp
  have h2 : (L ++ y :: x :: T)[L.length]? = some y := by
    rw [List.getElem?_append_right (by omega)]
    simp
  unfold lessBy
  rw [h1, h2]

theorem insertBack_length {α : Type} (key : α → Int) (x : α) (R : List α) :
    (insertBack key x R).length = R.length + 1 := by
  induction R with
  | nil => rfl
  | cons y R ih =>
    unfold insertBack
    split <;> simp [ih]

theorem insertionStep_lessBy {α : Type} (key : α → Int) (R : List α) (x : α) (T : List α) :
    insertionStep (lessBy key) R.length (R.reverse ++ x :: T)
      = (insertBack key x R).reverse ++ T := by
  induction R generalizing T with
  | nil => simp [insertionStep, insertBack]
  | cons y R ih =>
    have hshape : (y :: R).reverse ++ x :: T = R.reverse ++ y :: x :: T := by simp
    have hlen : (y :: R).length = R.reverse.length + 1 := by simp
    rw [hshape, hlen, insertionStep, lessBy_adjacent, swap_adjacent]
    by_cases h : key x < key y
    · simp only [h, decide_True, if_true]
      rw [List.length_reverse, ih]
      simp [insertBack, h]
    · simp [insertBack, h]

theorem outer_loop_lessBy {α : Type} (key : α → Int) (rest acc : List α) :
    (List.range' acc.length rest.length).foldl
        (fun xs i => insertionStep (lessBy key) i xs) (acc.reverse ++ rest)
      = (rest.foldl (fun acc x => insertBack key x acc) acc).reverse := by
  induction rest generalizing acc with
  | nil => simp
  | cons x rest ih =>
    rw [List.length_cons, List.range'_succ, List.foldl_cons, insertionStep_lessBy,
      List.foldl_cons, ← insertBack_length key x acc]
    exact ih (insertBack key x acc)

theorem sliceStable_lessBy {α : Type} (key : α → Int) (xs : List α) :
    SliceStable xs (lessBy key) = (sortedBack key xs).reverse := by
  cases xs with
  | nil => rfl
  | cons x rest =>
    have h := outer_loop_lessBy key rest [x]
    simpa [SliceStable, sortedBack, insertBack] using h

/-! ## The functional form: permutation, order, positions -/

theorem insertBack_perm {α : Type} (key : α → Int) (x : α) (R : List α) :
    (insertBack key x R).Perm (x :: R) := by
  induction R with
  | nil => exact List.Perm.refl _
  | cons y R ih =>
    unfold insertBack
    split
    · exact (ih.cons y).trans (List.Perm.swap x y R)
    · exact List.Perm.refl _

theorem foldl_insertBack_perm {α : Type} (key : α → Int) (rest acc : List α) :
    (rest.foldl (fun acc x => insertBack key x acc) acc).Perm (rest ++ acc) := by
  induction rest generalizing acc with
  | nil => exact List.Perm.refl _
  | cons x rest ih =>
    rw [List.foldl_cons]
    refine (ih _).trans ?_
    refine (List.Perm.append_left rest (insertBack_perm key x acc)).trans ?_
    simp

theorem sortedBack_perm {α : Type} (key : α → Int) (xs : List α) :
    (sortedBack key xs).Perm xs := by
  simpa [sortedBack] using foldl_insertBack_perm key xs []

theorem insertBack_descending {α : Type} (key : α → Int) (x : α) (R : List α)
    (h : R.Pairwise (fun a b => key b ≤ key a)) :
    (insertBack key x R).Pairwise (fun a b => key b ≤ key a) := by
  induction R with
  | nil => simp [insertBack]
  | cons y R ih =>
    rw [List.pairwise_cons] at h
    unfold insertBack
    split
    · rename_i hlt
      rw [List.pairwise_cons]
      refine ⟨?_, ih h.2⟩
      intro b hb
      rcases (List.mem_cons.mp ((insertBack_perm key x R).mem_iff.mp hb)) with hbx | hbR
      · subst hbx; omega
      · exact h.1 b hbR
    · rename_i hge
      rw [List.pairwise_cons]
      refine ⟨?_, List.pairwise_cons.mpr h⟩
      intro b hb
      rcases List.mem_cons.mp hb with hby | hbR
      · subst hby; omega
      · have := h.1 b hbR
        omega

theorem sortedBack_descending {α : Type} (key : α → Int) (xs : List α) :
    (sortedBack key xs).Pairwise (fun a b => key b ≤ key a) := by
  have h : ∀ rest acc : List α, acc.Pairwise (fun a b => key b ≤ key a) →
      (rest.foldl (fun acc x => insertBack key x acc) acc).Pairwise
        (fun a b => key b ≤ key a) := by
    intro rest
    induction rest with
    | nil => intro acc hacc; exact hacc
    | cons x rest ih =>
      intro acc hacc
      exact ih _ (insertBack_descending key x acc hacc)
  exact h xs [] List.Pairwise.nil

theorem map_insertBack {α β : Type} (f : α → β) (key : β → Int) (x : α) (R : List α) :
    (insertBack (fun a => key (f a)) x R).map f = insertBack key (f x) (R.map f) := by
  induction R with
  | nil => rfl
  | cons y R ih =>
    simp only [insertBack, List.map_cons]
    split
    · rw [List.map_cons, ih]
    · rfl

theorem map_sortedBack {α β : Type} (f : α → β) (key : β → Int) (xs : List α) :
    (sortedBack (fun a => key (f a)) xs).map f = sortedBack key (xs.map f) := by
  have h : ∀ rest acc : List α,
      (rest.foldl (fun acc x => insertBack (fun a => key (f a)) x acc) acc).map f
        = (rest.map f).foldl (fun acc x => insertBack key x acc) (acc.map f) := by
    intro rest
    induction rest with
    | nil => intro acc; rfl
    | cons x rest ih =>
      intro acc
      rw [List.foldl_cons, ih, map_insertBack]
      rfl
  exact h xs []

/-! ## `DefaultSort` -/

theorem less_eq_lessBy : less = lessBy sortKey := by
  funext cards i j
  unfold less lessBy
  cases cards[i]? <;> cases cards[j]? <;> rfl

theorem defaultSort_eq (cs : List Card) : DefaultSort cs = (sortedBack sortKey cs).reverse := by
  unfold DefaultSort
  rw [less_eq_lessBy, sliceStable_lessBy]

theorem defaultSort_perm (cs : List Card) : (DefaultSort cs).Perm cs := by
  rw [defaultSort_eq]
  exact (List.reverse_perm _).trans (sortedBack_perm sortKey cs)

theorem defaultSort_pairwise (cs : List Card) :
    (DefaultSort cs).Pairwise (fun a b => sortKey a ≤ sortKey b) := by
  rw [defaultSort_eq, List.pairwise_reverse]
  exact sortedBack_descending sortKey cs

theorem wrapInt_of_inInt64 (x : Int) (h : inInt64 x) : wrapInt x = x := by
  unfold inInt64 at h
  unfold wrapInt
  omega

theorem sortKey_of_noOverflow (c : Card) (h : noOverflow c) :
    sortKey c = 13 * c.Suit + c.Value := by
  unfold sortKey
  rw [wrapInt_of_inInt64 _ h.1, wrapInt_of_inInt64 _ h.2]

theorem noOverflow_of_range (c : Card) (hs : (0 : Int) ≤ c.Suit) (hs' : (4 : Int) ≥ c.Suit)
    (hv : (0 : Int) ≤ c.Value) (hv' : (13 : Int) ≥ c.Value) : noOverflow c := by
  unfold noOverflow inInt64
  omega

theorem sortKey_eq_of_key_eq (a b : Card)
    (h : 13 * a.Suit + a.Value = 13 * b.Suit + b.Value) : sortKey a = sortKey b := by
  have h' : (13 * a.Suit + a.Value : Int) = 13 * b.Suit + b.Value := h
  unfold sortKey wrapInt
  omega

set_option maxRecDepth 100000 in
theorem canonical_keys_sorted :
    canonicalDeck.Pairwise (fun a b => sortKey a ≤ sortKey b) := by decide

set_option maxRecDepth 100000 in
theorem canonical_keys_nodup : (canonicalDeck.map sortKey).Nodup := by decide

theorem eq_of_map_eq {α β : Type} (f : α → β) (l₁ l₂ : List α)
    (hinj : ∀ a ∈ l₁, ∀ b ∈ l₂, f a = f b → a = b) (h : l₁.map f = l₂.map f) :
    l₁ = l₂ := by
  induction l₁ generalizing l₂ with
  | nil =>
    cases l₂ with
    | nil => rfl
    | cons b l₂ => simp at h
  | cons a l₁ ih =>
    cases l₂ with
    | nil => simp at h
    | cons b l₂ =>
      simp only [List.map_cons, List.cons.injEq] at h
      have hab : a = b := hinj a (List.mem_cons_self _ _) b (List.mem_cons_self _ _) h.1
      have htl : l₁ = l₂ :=
        ih l₂ (fun x hx y hy => hinj x (List.mem_cons_of_mem _ hx) y (List.mem_cons_of_mem _ hy))
          h.2
      rw [hab, htl]

/-- C7: round trip. For every permutation `p` of the canonical deck, which is what
`Shuffle` returns on `New()`, `DefaultSort(p)` is `New()` card for card. -/
theorem defaultSort_roundtrip (p : List Card) (hp : p.Perm (New [])) :
    DefaultSort p = New [] := by
  rw [new_nil] at hp ⊢
  have hperm : (DefaultSort p).Perm canonicalDeck := (defaultSort_perm p).trans hp
  have hkeys : (DefaultSort p).map sortKey = canonicalDeck.map sortKey := by
    have hanti : IsAntisymm Int (fun a b => a ≤ b) := ⟨fun a b h₁ h₂ => Int.le_antisymm h₁ h₂⟩
    have h₁ : ((DefaultSort p).map sortKey).Pairwise (fun a b => a ≤ b) :=
      List.pairwise_map.mpr (defaultSort_pairwise p)
    have h₂ : (canonicalDeck.map sortKey).Pairwise (fun a b => a ≤ b) :=
      List.pairwise_map.mpr canonical_keys_sorted
    exact List.eq_of_perm_of_sorted (hperm.map sortKey) h₁ h₂
  refine eq_of_map_eq sortKey _ _ ?_ hkeys
  intro a ha b hb hab
  exact List.inj_on_of_nodup_map canonical_keys_nodup (hperm.mem_iff.mp ha) hb hab

theorem defaultSort_roundtrip_witness :
    (New []).reverse.Perm (New []) ∧ DefaultSort (New []).reverse = New [] :=
  ⟨List.reverse_perm _, defaultSort_roundtrip _ (List.reverse_perm _)⟩

/-- C8: `DefaultSort(cs)` is a permutation of `cs` (same length, same multiplicity of
every card) whose adjacent cards are in the order of the key `13*suit + rank`; the key
is the one `less` computes in `int` arithmetic, which is the integer `13*suit + rank`
for every card whose key does not overflow. The empty sequence sorts to itself. -/
theorem defaultSort_sorted_perm (cs : List Card) :
    (DefaultSort cs).Perm cs ∧
    (DefaultSort cs).length = cs.length ∧
    (∀ c : Card, (DefaultSort cs).count c = cs.count c) ∧
    (∀ (i : Nat) (h : i + 1 < (DefaultSort cs).length),
      sortKey ((DefaultSort cs)[i]) ≤ sortKey ((DefaultSort cs)[i + 1])) ∧
    ((∀ c ∈ cs, noOverflow c) →
      ∀ (i : Nat) (h : i + 1 < (DefaultSort cs).length),
        13 * ((DefaultSort cs)[i]).Suit + ((DefaultSort cs)[i]).Value
          ≤ 13 * ((DefaultSort cs)[i + 1]).Suit + ((DefaultSort cs)[i + 1]).Value) ∧
    DefaultSort [] = [] := by
  have hperm := defaultSort_perm cs
  have hadj : ∀ (i : Nat) (h : i + 1 < (DefaultSort cs).length),
      sortKey ((DefaultSort cs)[i]) ≤ sortKey ((DefaultSort cs)[i + 1]) := by
    intro i h
    exact List.pairwise_iff_getElem.mp (defaultSort_pairwise cs) i (i + 1) (by omega) h
      (by omega)
  refine ⟨hperm, hperm.length_eq, fun c => hperm.count_eq c, hadj, ?_, rfl⟩
  intro hno i h
  have h1 : noOverflow ((DefaultSort cs)[i]) :=
    hno _ (hperm.mem_iff.mp (List.getElem_mem _))
  have h2 : noOverflow ((DefaultSort cs)[i + 1]) :=
    hno _ (hperm.mem_iff.mp (List.getElem_mem _))
  rw [← sortKey_of_noOverflow _ h1, ← sortKey_of_noOverflow _ h2]
  exact hadj i h

/-! ## Stability: the sort on position-tagged cards -/

theorem tracked_less_eq :
    (fun cur : List (Nat × Card) => less (cur.map Prod.snd))
      = lessBy (fun a : Nat × Card => sortKey a.2) := by
  funext cur i j
  unfold less lessBy
  rw [List.getElem?_map, List.getElem?_map]
  cases cur[i]? <;> cases cur[j]? <;> rfl

theorem tracked_eq (cs : List Card) :
    DefaultSort.tracked cs
      = (sortedBack (fun a : Nat × Card => sortKey a.2) cs.enum).reverse := by
  unfold DefaultSort.tracked
  rw [tracked_less_eq, sliceStable_lessBy]

theorem tracked_map_snd (cs : List Card) :
    (DefaultSort.tracked cs).map Prod.snd = DefaultSort cs := by
  rw [tracked_eq, defaultSort_eq, List.map_reverse, map_sortedBack Prod.snd sortKey,
    List.enum_map_snd]

theorem tracked_perm (cs : List Card) : (DefaultSort.tracked cs).Perm cs.enum := by
  rw [tracked_eq]
  exact (List.reverse_perm _).trans (sortedBack_perm _ _)

theorem trackedLt_of_le (a b : Nat × Card) (hk : sortKey a.2 ≤ sortKey b.2)
    (ht : a.1 < b.1) : trackedLt a b := by
  by_cases h : sortKey a.2 < sortKey b.2
  · exact Or.inl h
  · exact Or.inr ⟨by omega, ht⟩

theorem trackedLt_key_le (a b : Nat × Card) (h : trackedLt a b) :
    sortKey a.2 ≤ sortKey b.2 := by
  rcases h with h | h
  · exact Int.le_of_lt h
  · exact Int.le_of_eq h.1

theorem trackedLt_asymm (a b : Nat × Card) (h₁ : trackedLt a b) (h₂ : trackedLt b a) :
    False := by
  rcases h₁ with h₁ | ⟨e₁, t₁⟩ <;> rcases h₂ with h₂ | ⟨e₂, t₂⟩ <;> omega

theorem insertBack_tracked (x : Nat × Card) (R : List (Nat × Card))
    (hR : R.Pairwise (fun a b => trackedLt b a)) (hx : ∀ a ∈ R, a.1 < x.1) :
    (insertBack (fun a : Nat × Card => sortKey a.2) x R).Pairwise
      (fun a b => trackedLt b a) := by
  induction R with
  | nil => simp [insertBack]
  | cons y R ih =>
    rw [List.pairwise_cons] at hR
    unfold insertBack
    split
    · rename_i hlt
      rw [List.pairwise_cons]
      refine ⟨?_, ih hR.2 (fun a ha => hx a (List.mem_cons_of_mem _ ha))⟩
      intro b hb
      rcases List.mem_cons.mp ((insertBack_perm _ x R).mem_iff.mp hb) with hbx | hbR
      · subst hbx; exact Or.inl hlt
      · exact hR.1 b hbR
    · rename_i hge
      have hyx : sortKey y.2 ≤ sortKey x.2 := by omega
      rw [List.pairwise_cons]
      refine ⟨?_, List.pairwise_cons.mpr hR⟩
      intro b hb
      refine trackedLt_of_le b x ?_ (hx b hb)
      rcases List.mem_cons.mp hb with hby | hbR
      · subst hby; exact hyx
      · exact Int.le_trans (trackedLt_key_le b y (hR.1 b hbR)) hyx

theorem foldl_tracked (rest acc : List (Nat × Card))
    (hacc : acc.Pairwise (fun a b => trackedLt b a))
    (hrest : rest.Pairwise (fun a b => a.1 < b.1))
    (hlt : ∀ a ∈ acc, ∀ b ∈ rest, a.1 < b.1) :
    (rest.foldl (fun acc x => insertBack (fun a : Nat × Card => sortKey a.2) x acc)
      acc).Pairwise (fun a b => trackedLt b a) := by
  induction rest generalizing acc with
  | nil => exact hacc
  | cons x rest ih =>
    rw [List.pairwise_cons] at hrest
    rw [List.foldl_cons]
    refine ih _ (insertBack_tracked x acc hacc
      (fun a ha => hlt a ha x (List.mem_cons_self _ _))) hrest.2 ?_
    intro a ha b hb
    rcases List.mem_cons.mp ((insertBack_perm _ x acc).mem_iff.mp ha) with hax | haacc
    · subst hax; exact hrest.1 b hb
    · exact hlt a haacc b (List.mem_cons_of_mem _ hb)

theorem enum_positions_increasing (cs : List Card) :
    cs.enum.Pairwise (fun a b => a.1 < b.1) := by
  have h : (cs.enum.map Prod.fst).Pairwise (fun a b => a < b) := by
    rw [List.enum_map_fst]
    exact List.pairwise_lt_range _
  exact List.pairwise_map.mp h

theorem tracked_pairwise (cs : List Card) : (DefaultSort.tracked cs).Pairwise trackedLt := by
  rw [tracked_eq, List.pairwise_reverse]
  exact foldl_tracked cs.enum [] List.Pairwise.nil (enum_positions_increasing cs)
    (fun a ha => absurd ha (List.not_mem_nil a))

/-- The result of the sort does not depend on how the stable sort is carried out: every
arrangement of the position-tagged cards that is ordered by key and, among equal keys,
by input position, is the arrangement `DefaultSort` produces. -/
theorem stable_sort_unique (cs : List Card) (t : List (Nat × Card))
    (hperm : t.Perm cs.enum) (hsorted : t.Pairwise trackedLt) :
    t = DefaultSort.tracked cs := by
  have hanti : IsAntisymm (Nat × Card) trackedLt :=
    ⟨fun a b h₁ h₂ => (trackedLt_asymm a b h₁ h₂).elim⟩
  exact List.eq_of_perm_of_sorted (hperm.trans (tracked_perm cs).symm) hsorted
    (tracked_pairwise cs)

/-- C9: `DefaultSort` is stable. Run on the cards tagged with their input positions,
the sort yields `DefaultSort(cs)` with every card carrying the position it came from;
for positions `i < j` of `cs` whose cards have the same sort key, the card from `i`
stands at an earlier index of the result than the card from `j`. -/
theorem defaultSort_stable (cs : List Card) (i j : Nat) (hi : i < cs.length)
    (hj : j < cs.length) (hij : i < j) (hkey : sortKey cs[i] = sortKey cs[j]) :
    (DefaultSort.tracked cs).map Prod.snd = DefaultSort cs ∧
    ∃ p q : Nat, p < q ∧
      (DefaultSort.tracked cs)[p]? = some (i, cs[i]) ∧
      (DefaultSort.tracked cs)[q]? = some (j, cs[j]) ∧
      (DefaultSort cs)[p]? = some cs[i] ∧
      (DefaultSort cs)[q]? = some cs[j] := by
  refine ⟨tracked_map_snd cs, ?_⟩
  have hmi : (i, cs[i]) ∈ DefaultSort.tracked cs :=
    (tracked_perm cs).mem_iff.mpr (List.mk_mem_enum_iff_getElem?.mpr (by simp [hi]))
  have hmj : (j, cs[j]) ∈ DefaultSort.tracked cs :=
    (tracked_perm cs).mem_iff.mpr (List.mk_mem_enum_iff_getElem?.mpr (by simp [hj]))
  obtain ⟨p, hp, hpe⟩ := List.getElem_of_mem hmi
  obtain ⟨q, hq, hqe⟩ := List.getElem_of_mem hmj
  have hlt : trackedLt (i, cs[i]) (j, cs[j]) := Or.inr ⟨hkey, hij⟩
  have hpq : p < q := by
    rcases Nat.lt_trichotomy p q with h | h | h
    · exact h
    · subst h
      rw [hpe] at hqe
      have : i = j := congrArg Prod.fst hqe
      omega
    · have h' := List.pairwise_iff_getElem.mp (tracked_pairwise cs) q p hq hp h
      rw [hpe, hqe] at h'
      exact (trackedLt_asymm _ _ hlt h').elim
  have hp? : (DefaultSort.tracked cs)[p]? = some (i, cs[i]) := by
    rw [List.getElem?_eq_getElem hp, hpe]
  have hq? : (DefaultSort.tracked cs)[q]? = some (j, cs[j]) := by
    rw [List.getElem?_eq_getElem hq, hqe]
  refine ⟨p, q, hpq, hp?, hq?, ?_, ?_⟩
  · rw [← tracked_map_snd, List.getElem?_map, hp?]; rfl
  · rw [← tracked_map_snd, List.getElem?_map, hq?]; rfl

theorem defaultSort_stable_witness :
    (DefaultSort.tracked [⟨King, Hearts⟩, ⟨Ace, Spades⟩, ⟨King, Hearts⟩]).map Prod.snd
      = DefaultSort [⟨King, Hearts⟩, ⟨Ace, Spades⟩, ⟨King, Hearts⟩] ∧
    ∃ p q : Nat, p < q ∧
      (DefaultSort.tracked [⟨King, Hearts⟩, ⟨Ace, Spades⟩, ⟨King, Hearts⟩])[p]?
        = some (0, ⟨King, Hearts⟩) ∧
      (DefaultSort.tracked [⟨King, Hearts⟩, ⟨Ace, Spades⟩, ⟨King, Hearts⟩])[q]?
        = some (2, ⟨King, Hearts⟩) ∧
      (DefaultSort [⟨King, Hearts⟩, ⟨Ace, Spades⟩, ⟨King, Hearts⟩])[p]?
        = some ⟨King, Hearts⟩ ∧
      (DefaultSort [⟨King, Hearts⟩, ⟨Ace, Spades⟩, ⟨King, Hearts⟩])[q]?
        = some ⟨King, Hearts⟩ :=
  defaultSort_stable [⟨King, Hearts⟩, ⟨Ace, Spades⟩, ⟨King, Hearts⟩] 0 2
    (by decide) (by decide) (by decide) (by decide)

/-! ## Jokers and the King of Hearts -/

set_option maxRecDepth 100000 in
/-- C10: the key of the Joker that `WithJokers` appends, `13*4 + 0`, is the key of the
King of Hearts, `13*3 + 13`, so the sort leaves the two in their input order: a Joker
that stands before the King of Hearts stays before it. `New(WithJokers(1), CleanCut,
CleanCut, DefaultSort)` ends (Queen, Hearts), Joker, (King, Hearts). -/
theorem defaultSort_joker_before_king :
    sortKey ⟨0, Joker⟩ = 52 ∧ sortKey ⟨King, Hearts⟩ = 52 ∧
    DefaultSort [⟨0, Joker⟩, ⟨King, Hearts⟩] = [⟨0, Joker⟩, ⟨King, Hearts⟩] ∧
    (New [WithJokers 1, CleanCut, CleanCut]).head? = some ⟨0, Joker⟩ ∧
    (New [WithJokers 1, CleanCut, CleanCut, DefaultSort]).drop 50
      = [⟨Queen, Hearts⟩, ⟨0, Joker⟩, ⟨King, Hearts⟩] := by
  refine ⟨by decide, by decide, by decide, by decide, ?_⟩
  have h : New [WithJokers 1, CleanCut, CleanCut, DefaultSort]
      = DefaultSort (New [WithJokers 1, CleanCut, CleanCut]) :=
    new_snoc [WithJokers 1, CleanCut, CleanCut] DefaultSort
  rw [h, defaultSort_eq]
  decide

/-- A Joker still comes after every Hearts card from Ace to Queen, whose keys are
40..51: in the sorted result no such card stands after a Joker. -/
theorem defaultSort_joker_after_lower_hearts (cs : List Card) (p q : Nat)
    (hp : p < (DefaultSort cs).length) (hq : q < (DefaultSort cs).length)
    (hJ : (DefaultSort cs)[p] = ⟨0, Joker⟩)
    (hH : ((DefaultSort cs)[q]).Suit = Hearts)
    (hlo : Ace ≤ ((DefaultSort cs)[q]).Value) (hhi : ((DefaultSort cs)[q]).Value ≤ Queen) :
    q < p := by
  have hkJ : sortKey ((DefaultSort cs)[p]) = 52 := by rw [hJ]; decide
  have hkH : sortKey ((DefaultSort cs)[q]) < 52 := by
    have hlo' : (1 : Int) ≤ ((DefaultSort cs)[q]).Value := hlo
    have hhi' : (12 : Int) ≥ ((DefaultSort cs)[q]).Value := hhi
    have hH' : (3 : Int) = ((DefaultSort cs)[q]).Suit := hH.symm
    unfold sortKey wrapInt
    rw [← hH']
    omega
  rcases Nat.lt_trichotomy p q with h | h | h
  · have := List.pairwise_iff_getElem.mp (defaultSort_pairwise cs) p q hp hq h
    omega
  · subst h; omega
  · exact h

/-! ## Custom sort with the package's ordering -/

set_option maxRecDepth 100000 in
theorem defaultSort_canonical : DefaultSort canonicalDeck = canonicalDeck := by
  rw [defaultSort_eq]
  decide

/-- C11: `CustomSort` given the package's `less` is `DefaultSort` on every card
sequence, and `New(CustomSort(less))` is `New()` card for card. -/
theorem customSort_less_eq_defaultSort (cs : List Card) :
    CustomSort less cs = DefaultSort cs ∧
    New [CustomSort less] = New [] ∧
    (∀ i : Nat, (New [CustomSort less])[i]? = (New [])[i]?) := by
  have h : New [CustomSort less] = New [] := by
    rw [new_single, new_nil]
    exact defaultSort_canonical
  exact ⟨rfl, h, fun i => by rw [h]⟩

/-! ## Cut -/

theorem intn_of_lt (k : Nat) (n : Nat) (hk : k < n) : Intn k n = some (k : Int) := by
  unfold Intn
  have h₁ : ¬ ((n : Int) ≤ 0) := by omega
  have h₂ : (k : Int) % (n : Int) = k := Int.emod_eq_of_lt (by omega) (by omega)
  rw [if_neg h₁, h₂]

theorem cut_of_lt (cs : List Card) (k : Nat) (hk : k < cs.length) :
    Cut k cs = some (cs.drop k ++ cs.take k) := by
  unfold Cut
  rw [intn_of_lt k cs.length hk]
  rfl

theorem cut_draw (cs : List Card) (draw : Nat) (hne : 0 < cs.length) :
    Cut draw cs
      = some (cs.drop (draw % cs.length) ++ cs.take (draw % cs.length)) := by
  unfold Cut Intn
  have h₁ : ¬ ((cs.length : Int) ≤ 0) := by omega
  rw [if_neg h₁, ← Int.ofNat_emod]
  rfl

/-- C12: for a non-empty `cs` and a split point `k < len(cs)` from the random source,
`Cut(cs)` is `cs[k:]` followed by `cs[:k]`: a permutation of `cs` of the same length
whose first card is the card at index `k`; and whatever the source draws, the result is
of this form for some `k < len(cs)`. -/
theorem cut_rotates (cs : List Card) (k : Nat) (hk : k < cs.length) :
    Cut k cs = some (cs.drop k ++ cs.take k) ∧
    cs.drop k ++ cs.take k = cs.rotate k ∧
    (cs.drop k ++ cs.take k).length = cs.length ∧
    (cs.drop k ++ cs.take k).Perm cs ∧
    (cs.drop k ++ cs.take k)[0]? = cs[k]? ∧
    (∀ draw : Nat, ∃ k' : Nat, k' < cs.length ∧
      Cut draw cs = some (cs.drop k' ++ cs.take k')) := by
  have hrot : cs.drop k ++ cs.take k = cs.rotate k :=
    (List.rotate_eq_drop_append_take (Nat.le_of_lt hk)).symm
  refine ⟨cut_of_lt cs k hk, hrot, ?_, ?_, ?_, ?_⟩
  · rw [hrot, List.length_rotate]
  · rw [hrot]; exact List.rotate_perm cs k
  · rw [List.getElem?_append_left (by simp; omega)]
    simp
  · intro draw
    have hpos : 0 < cs.length := by omega
    exact ⟨draw % cs.length, Nat.mod_lt _ hpos, cut_draw cs draw hpos⟩

theorem cut_rotates_witness :
    Cut 26 (New []) = some ((New []).drop 26 ++ (New []).take 26) ∧
    (New []).drop 26 ++ (New []).take 26 = (New []).rotate 26 ∧
    ((New []).drop 26 ++ (New []).take 26).length = (New []).length ∧
    ((New []).drop 26 ++ (New []).take 26).Perm (New []) ∧
    ((New []).drop 26 ++ (New []).take 26)[0]? = (New [])[26]? ∧
    (∀ draw : Nat, ∃ k' : Nat, k' < (New []).length ∧
      Cut draw (New []) = some ((New []).drop k' ++ (New []).take k')) :=
  cut_rotates (New []) 26 (by decide)

/-- C13: `Cut` of the empty deck panics: `rand.Intn(0)` is called and rejects its
argument, whatever the random source holds; so does `Cut` after a filter that removes
every card. `CleanCut`, `Shuffle` and `DefaultSort` return the empty deck. -/
theorem cut_empty_panics :
    (∀ draw : Nat, Intn draw 0 = none) ∧
    (∀ draw : Nat, Cut draw [] = none) ∧
    New [Filter (fun _ => true)] = [] ∧
    (∀ draw : Nat, Cut draw (New [Filter (fun _ => true)]) = none) ∧
    CleanCut [] = [] ∧
    (∀ draws : Nat → Nat, Shuffle draws [] = some []) ∧
    DefaultSort [] = [] := by
  have hnew : New [Filter (fun _ => true)] = [] := by
    rw [new_single, filter_eq]
    simp
  refine ⟨fun _ => rfl, fun _ => rfl, hnew, ?_, rfl, fun _ => rfl, rfl⟩
  intro draw
  rw [hnew]
  rfl

/-! ## Swaps keep the cards -/

theorem set_cons_perm {α : Type} (xs : List α) (j : Nat) (b x : α)
    (h : xs[j]? = some b) : (b :: xs.set j x).Perm (x :: xs) := by
  induction xs generalizing j with
  | nil => simp at h
  | cons y t ih =>
    cases j with
    | zero =>
      simp only [List.getElem?_cons_zero, Option.some.injEq] at h
      subst h
      exact List.Perm.swap _ _ _
    | succ j =>
      simp only [List.getElem?_cons_succ] at h
      rw [List.set_cons_succ]
      exact (List.Perm.swap y b _).trans (((ih j h).cons y).trans (List.Perm.swap x y t))

theorem set_set_perm {α : Type} (xs : List α) (i j : Nat) (a b : α)
    (hi : xs[i]? = some a) (hj : xs[j]? = some b) : ((xs.set i b).set j a).Perm xs := by
  induction xs generalizing i j with
  | nil => simp at hi
  | cons x t ih =>
    cases i with
    | zero =>
      simp only [List.getElem?_cons_zero, Option.some.injEq] at hi
      subst hi
      cases j with
      | zero =>
        simp only [List.getElem?_cons_zero, Option.some.injEq] at hj
        subst hj
        exact List.Perm.refl _
      | succ j =>
        simp only [List.getElem?_cons_succ] at hj
        rw [List.set_cons_zero, List.set_cons_succ]
        exact set_cons_perm t j b x hj
    | succ i =>
      simp only [List.getElem?_cons_succ] at hi
      cases j with
      | zero =>
        simp only [List.getElem?_cons_zero, Option.some.injEq] at hj
        subst hj
        rw [List.set_cons_succ, List.set_cons_zero]
        exact set_cons_perm t i a x hi
      | succ j =>
        simp only [List.getElem?_cons_succ] at hj
        rw [List.set_cons_succ, List.set_cons_succ]
        exact (ih i j hi hj).cons x

theorem swap_perm {α : Type} (xs : List α) (i j : Nat) : (swap xs i j).Perm xs := by
  unfold swap
  cases hi : xs[i]? with
  | none => exact List.Perm.refl _
  | some a =>
    cases hj : xs[j]? with
    | none => exact List.Perm.refl _
    | some b => exact set_set_perm xs i j a b hi hj

theorem swapCards_in_range (cards : List Card) (i j : Nat) (hi : i < cards.length)
    (hj : j < cards.length) :
    ∃ r, swapCards cards i j = some r ∧ r.Perm cards := by
  unfold swapCards
  rw [List.getElem?_eq_getElem hi, List.getElem?_eq_getElem hj]
  exact ⟨_, rfl, set_set_perm cards i j _ _ (List.getElem?_eq_getElem hi)
    (List.getElem?_eq_getElem hj)⟩

theorem insertionStep_perm {α : Type} (less : List α → Nat → Nat → Bool) (j : Nat)
    (xs : List α) : (insertionStep less j xs).Perm xs := by
  induction j generalizing xs with
  | zero => exact List.Perm.refl _
  | succ j ih =>
    unfold insertionStep
    split
    · exact (ih _).trans (swap_perm xs (j + 1) j)
    · exact List.Perm.refl _

theorem sliceStable_perm {α : Type} (less : List α → Nat → Nat → Bool) (xs : List α) :
    (SliceStable xs less).Perm xs := by
  have h : ∀ (steps : List Nat) (ys : List α),
      (steps.foldl (fun xs i => insertionStep less i xs) ys).Perm ys := by
    intro steps
    induction steps with
    | nil => intro ys; exact List.Perm.refl _
    | cons i steps ih =>
      intro ys
      rw [List.foldl_cons]
      exact (ih _).trans (insertionStep_perm less i ys)
  exact h _ xs

/-- Any run of swaps, at whatever indices, leaves a permutation: the property of
`sliceStable_perm` belongs to every sort that moves the cards through the swapper only. -/
theorem swaps_perm {α : Type} (steps : List (Nat × Nat)) (xs : List α) :
    (steps.foldl (fun ys s => swap ys s.1 s.2) xs).Perm xs := by
  induction steps generalizing xs with
  | nil => exact List.Perm.refl _
  | cons s steps ih =>
    rw [List.foldl_cons]
    exact (ih _).trans (swap_perm xs s.1 s.2)

/-! ## Shuffle -/

theorem randShuffle_perm (draws : Nat → Nat) (i : Nat) (cards : List Card)
    (hi : i < cards.length ∨ i = 0) :
    ∃ r, randShuffle draws swapCards i cards = some r ∧ r.Perm cards := by
  induction i generalizing cards with
  | zero => exact ⟨cards, rfl, List.Perm.refl _⟩
  | succ i ih =>
    have hlt : i + 1 < cards.length := by omega
    have hj : draws (i + 1) % (i + 2) < cards.length :=
      Nat.lt_of_lt_of_le (Nat.mod_lt _ (by omega)) (by omega)
    obtain ⟨c, hc, hperm⟩ := swapCards_in_range cards (i + 1) _ hlt hj
    obtain ⟨r, hr, hrperm⟩ := ih c (Or.inl (by rw [hperm.length_eq]; omega))
    refine ⟨r, ?_, hrperm.trans hperm⟩
    unfold randShuffle
    rw [hc]
    exact hr

/-- C14: whatever the random source draws, `Shuffle(cs)` returns (it does not panic) a
permutation of `cs` of the same length; a sequence of 0 or 1 cards is returned as it
is. -/
theorem shuffle_permutes (draws : Nat → Nat) (cs : List Card) :
    (∃ r, Shuffle draws cs = some r ∧ r.Perm cs ∧ r.length = cs.length) ∧
    (cs.length ≤ 1 → Shuffle draws cs = some cs) := by
  constructor
  · have hi : cs.length - 1 < cs.length ∨ cs.length - 1 = 0 := by omega
    obtain ⟨r, hr, hperm⟩ := randShuffle_perm draws (cs.length - 1) cs hi
    exact ⟨r, hr, hperm, hperm.length_eq⟩
  · intro h
    have h0 : cs.length - 1 = 0 := by omega
    unfold Shuffle
    rw [h0]
    rfl

/-! ## Display -/

/-- C15: a card of the Joker suit renders as `"Joker"` whatever its `Value`; every other
card renders as its rank, ` of `, its suit, and for the four standard suits and the
ranks Ace..King these are the names of the constants: (Ace, Spades) renders as
`"Ace of Spades"`. -/
theorem card_string_renders :
    (∀ v : Value, Card.String ⟨v, Joker⟩ = "Joker") ∧
    (∀ c : Card, c.Suit ≠ Joker →
      c.String = Value.String c.Value ++ " of " ++ Suit.String c.Suit) ∧
    Card.String ⟨Ace, Spades⟩ = "Ace of Spades" ∧
    canonicalDeck.map Card.String
      = ["Spades", "Diamonds", "Clubs", "Hearts"].flatMap (fun suit =>
          ["Ace", "Two", "Three", "Four", "Five", "Six", "Seven", "Eight", "Nine", "Ten",
            "Jack", "Queen", "King"].map (fun rank => rank ++ " of " ++ suit)) := by
  refine ⟨?_, ?_, by decide, by decide⟩
  · intro v
    simp [Card.String]
  · intro c hc
    simp [Card.String, hc]

/-! ## Negative counts -/

/-- C16: a negative count neither panics nor loops: for `n < 0`, `NumDecks(n)(cs)` is
the empty sequence and `WithJokers(n)(cs)` is `cs`, as for `n = 0`. -/
theorem negative_counts (n : Int) (hn : n < 0) (cs : List Card) :
    NumDecks n cs = [] ∧ WithJokers n cs = cs ∧
    NumDecks n cs = NumDecks 0 cs ∧ WithJokers n cs = WithJokers 0 cs := by
  have h0 : n.toNat = 0 := Int.toNat_of_nonpos (by omega)
  have h₁ : NumDecks n cs = [] := by
    unfold NumDecks
    rw [h0]
    rfl
  have h₂ : WithJokers n cs = cs := by
    unfold WithJokers
    rw [h0]
    rfl
  exact ⟨h₁, h₂, h₁, h₂⟩

theorem negative_counts_witness :
    NumDecks (-3) canonicalDeck = [] ∧ WithJokers (-3) canonicalDeck = canonicalDeck ∧
    NumDecks (-3) canonicalDeck = NumDecks 0 canonicalDeck ∧
    WithJokers (-3) canonicalDeck = WithJokers 0 canonicalDeck :=
  negative_counts (-3) (by decide) canonicalDeck

/-! ## `CleanCut` twice -/

theorem cleanCut_eq_rotate (cs : List Card) : CleanCut cs = cs.rotate (cs.length / 2) := by
  rw [List.rotate_eq_drop_append_take (Nat.div_le_self _ _)]
  rfl

/-- C17: on a sequence of even length `CleanCut` is an involution:
`CleanCut(CleanCut(cs)) = cs`. -/
theorem cleanCut_involution (cs : List Card) (h : cs.length % 2 = 0) :
    CleanCut (CleanCut cs) = cs := by
  rw [cleanCut_eq_rotate (CleanCut cs), cleanCut_eq_rotate cs, List.length_rotate,
    List.rotate_rotate]
  have hlen : cs.length / 2 + cs.length / 2 = cs.length := by omega
  rw [hlen, List.rotate_length]

theorem cleanCut_involution_witness : CleanCut (CleanCut (New [])) = New [] :=
  cleanCut_involution (New []) (by decide)

/-! ## Sorting a shoe of several decks -/

theorem eq_of_perm_of_keys_sorted (l₁ l₂ : List Card) (hperm : l₁.Perm l₂)
    (h₁ : l₁.Pairwise (fun a b => sortKey a ≤ sortKey b))
    (h₂ : l₂.Pairwise (fun a b => sortKey a ≤ sortKey b))
    (hinj : ∀ a ∈ l₂, ∀ b ∈ l₂, sortKey a = sortKey b → a = b) : l₁ = l₂ := by
  have hanti : IsAntisymm Int (fun a b => a ≤ b) := ⟨fun a b h h' => Int.le_antisymm h h'⟩
  have hk₁ : (l₁.map sortKey).Pairwise (fun a b => a ≤ b) := List.pairwise_map.mpr h₁
  have hk₂ : (l₂.map sortKey).Pairwise (fun a b => a ≤ b) := List.pairwise_map.mpr h₂
  have hkeys : l₁.map sortKey = l₂.map sortKey :=
    List.eq_of_perm_of_sorted (hperm.map sortKey) hk₁ hk₂
  exact eq_of_map_eq sortKey l₁ l₂
    (fun a ha b hb hab => hinj a (hperm.mem_iff.mp ha) b hb hab) hkeys

theorem flatten_replicate_cons_perm {α : Type} (n : Nat) (a : α) (l : List α) :
    (List.replicate n (a :: l)).flatten.Perm
      (List.replicate n a ++ (List.replicate n l).flatten) := by
  induction n with
  | zero => simp
  | succ n ihn =>
    simp only [List.replicate_succ, List.flatten_cons, List.cons_append]
    refine List.Perm.cons a ?_
    refine (List.Perm.append_left l ihn).trans ?_
    rw [← List.append_assoc, ← List.append_assoc]
    exact List.Perm.append_right _ List.perm_append_comm

theorem flatten_replicate_perm {α : Type} (n : Nat) (l : List α) :
    (List.replicate n l).flatten.Perm (l.flatMap (fun c => List.replicate n c)) := by
  induction l with
  | nil => simp
  | cons a l ih =>
    rw [List.flatMap_cons]
    exact (flatten_replicate_cons_perm n a l).trans (List.Perm.append_left _ ih)

theorem flatMap_replicate_sorted (n : Nat) (l : List Card)
    (h : l.Pairwise (fun a b => sortKey a ≤ sortKey b)) :
    (l.flatMap (fun c => List.replicate n c)).Pairwise
      (fun a b => sortKey a ≤ sortKey b) := by
  rw [List.pairwise_flatMap]
  constructor
  · intro a _
    rw [List.pairwise_replicate]
    exact Or.inr (Int.le_refl _)
  · refine h.imp ?_
    intro a b hab x hx y hy
    rw [List.mem_replicate] at hx hy
    rw [hx.2, hy.2]
    exact hab

theorem flatMap_replicate_getElem? {α : Type} (n : Nat) (hn : 0 < n) (l : List α) (i : Nat) :
    (l.flatMap (fun c => List.replicate n c))[i]? = l[i / n]? := by
  induction l generalizing i with
  | nil => simp
  | cons a l ih =>
    rw [List.flatMap_cons]
    by_cases hi : i < n
    · rw [List.getElem?_append_left (by simpa using hi), Nat.div_eq_of_lt hi]
      simp [List.getElem?_replicate, hi]
    · have hge : n ≤ i := Nat.le_of_not_lt hi
      rw [List.getElem?_append_right (by simpa using hge), List.length_replicate, ih]
      have hdiv : i / n = (i - n) / n + 1 := by
        rw [← Nat.add_div_right _ hn, Nat.sub_add_cancel hge]
      rw [hdiv, List.getElem?_cons_succ]

theorem defaultSort_numDecks (n : Nat) :
    DefaultSort (New [NumDecks n]) = canonicalDeck.flatMap (fun c => List.replicate n c) := by
  rw [new_single, numDecks_eq]
  refine eq_of_perm_of_keys_sorted _ _
    ((defaultSort_perm _).trans (flatten_replicate_perm n canonicalDeck))
    (defaultSort_pairwise _) (flatMap_replicate_sorted n _ canonical_keys_sorted) ?_
  intro a ha b hb hab
  rw [List.mem_flatMap] at ha hb
  obtain ⟨a', ha', hra⟩ := ha
  obtain ⟨b', hb', hrb⟩ := hb
  rw [List.mem_replicate] at hra hrb
  rw [hra.2, hrb.2] at hab ⊢
  exact List.inj_on_of_nodup_map canonical_keys_nodup ha' hb' hab

/-- C19: sorting a shoe groups identical cards. For `n ≥ 1`,
`DefaultSort(New(NumDecks(n)))` has `52 * n` cards and its card at every index
`i < 52 * n` is the card of `New()` at index `i / n`: every canonical card `n` times in
a row, in canonical order. -/
theorem defaultSort_shoe (n : Nat) (hn : 1 ≤ n) (i : Nat) (hi : i < 52 * n) :
    (DefaultSort (New [NumDecks n])).length = 52 * n ∧
    (DefaultSort (New [NumDecks n]))[i]? = (New [])[i / n]? ∧
    (∃ c : Card, (DefaultSort (New [NumDecks n]))[i]? = some c) ∧
    DefaultSort (New [NumDecks n])
      = (New []).flatMap (fun c => List.replicate n c) := by
  have hlen : (DefaultSort (New [NumDecks n])).length = 52 * n := by
    rw [(defaultSort_perm _).length_eq, new_single, numDecks_eq]
    simp [canonicalDeck_length, Nat.mul_comm]
  refine ⟨hlen, ?_, ?_, ?_⟩
  · rw [defaultSort_numDecks, new_nil]
    exact flatMap_replicate_getElem? n hn canonicalDeck i
  · exact ⟨_, List.getElem?_eq_getElem (by rw [hlen]; exact hi)⟩
  · rw [defaultSort_numDecks, new_nil]

theorem defaultSort_shoe_witness :
    (DefaultSort (New [NumDecks (6 : Nat)])).length = 52 * 6 ∧
    (DefaultSort (New [NumDecks (6 : Nat)]))[100]? = (New [])[100 / 6]? ∧
    (∃ c : Card, (DefaultSort (New [NumDecks (6 : Nat)]))[100]? = some c) ∧
    DefaultSort (New [NumDecks (6 : Nat)])
      = (New []).flatMap (fun c => List.replicate 6 c) :=
  defaultSort_shoe 6 (by decide) 100 (by decide)

/-! ## The library's stable sort keeps the cards -/

theorem foldl_swap_perm {ι : Type} (p q : ι → Nat) (l : List ι) :
    ∀ xs : List Card, (l.foldl (fun xs k => swap xs (p k) (q k)) xs).Perm xs := by
  induction l with
  | nil => intro xs; exact List.Perm.refl _
  | cons k l ih =>
    intro xs
    rw [List.foldl_cons]
    exact (ih _).trans (swap_perm xs (p k) (q k))

theorem swapRange_perm (xs : List Card) (a b n : Nat) :
    (swapRange_func xs a b n).Perm xs :=
  foldl_swap_perm (fun i => a + i) (fun i => b + i) _ xs

theorem rotateLoop_perm (m : Nat) (d : Nat) : ∀ (i j : Nat) (xs : List Card), i + j = d →
    (rotateLoop m i j xs).Perm xs := by
  induction d using Nat.strong_induction_on with
  | _ d ih =>
    intro i j xs hd
    rw [rotateLoop]
    split
    · exact swapRange_perm _ _ _ _
    · split
      · split
        · exact (ih (i - j + j) (by omega) _ _ _ rfl).trans (swapRange_perm _ _ _ _)
        · exact List.Perm.refl _
      · split
        · exact (ih (i + (j - i)) (by omega) _ _ _ rfl).trans (swapRange_perm _ _ _ _)
        · exact List.Perm.refl _

theorem rotate_perm (xs : List Card) (a m b : Nat) : (rotate_func xs a m b).Perm xs :=
  rotateLoop_perm m _ _ _ xs rfl

theorem insertionInner_ofPure (less : List Card → Nat → Nat → Bool) (j : Nat) :
    ∀ xs : List Card,
      insertionInner (Comparator.ofPure less).less 0 j ((), xs)
        = some ((), insertionStep less j xs) := by
  induction j with
  | zero => intro xs; rfl
  | succ j ih =>
    intro xs
    rw [insertionInner, if_pos (Nat.succ_pos j), insertionStep]
    have hc : callLess (Comparator.ofPure less).less (j + 1) j ((), xs)
        = some (less xs (j + 1) j, ((), xs)) := rfl
    rw [hc]
    cases hl : less xs (j + 1) j with
    | false => simp
    | true => simpa using ih (swap xs (j + 1) j)

theorem insertionSort_ofPure (less : List Card → Nat → Nat → Bool) (steps : List Nat) :
    ∀ xs : List Card,
      steps.foldlM (fun st i => insertionInner (Comparator.ofPure less).less 0 i st) ((), xs)
        = some ((), steps.foldl (fun xs i => insertionStep less i xs) xs) := by
  induction steps with
  | nil => intro xs; rfl
  | cons i steps ih =>
    intro xs
    rw [List.foldlM_cons, insertionInner_ofPure, List.foldl_cons]
    exact ih _

theorem stable_func_small {σ : Type}
    (less : σ → List Card → Nat → Nat → Option (Bool × σ × List Card)) (n : Nat)
    (hn : n ≤ 20) (st : σ × List Card) :
    stable_func less n st = insertionSort_func less 0 n st := by
  have hloop : ∀ st : σ × List Card, mergeLoop less n 20 st = some st := by
    intro st
    rw [mergeLoop, dif_neg (by omega)]
  have hnoop : ∀ st : σ × List Card, insertionSort_func less 20 20 st = some st :=
    fun _ => rfl
  unfold stable_func
  rcases Nat.lt_or_eq_of_le hn with hlt | heq
  · rw [Nat.div_eq_of_lt hlt]
    have hnil : (List.range 0).foldlM
        (fun st k => insertionSort_func less (20 * k) (20 * k + 20) st) st = some st := rfl
    rw [hnil]
    dsimp only
    cases h : insertionSort_func less 0 n st with
    | none => rfl
    | some st₂ => exact hloop st₂
  · subst heq
    have hone : (List.range (20 / 20)).foldlM
        (fun st k => insertionSort_func less (20 * k) (20 * k + 20) st) st
          = insertionSort_func less 0 20 st := by
      show (List.foldlM _ st [0]) = _
      rw [List.foldlM_cons]
      simp
    rw [hone]
    cases h : insertionSort_func less 0 20 st with
    | none => rfl
    | some st₁ =>
      dsimp only
      rw [show 20 * (20 / 20) = 20 from rfl, hnoop]
      exact hloop st₁

/-- Up to 20 cards the library's algorithm is the insertion sort over the whole slice:
for a comparator without effects `CustomSort.run` is `CustomSort`. -/
theorem customSort_run_small (less : List Card → Nat → Nat → Bool) (cs : List Card)
    (hlen : cs.length ≤ 20) :
    CustomSort.run (Comparator.ofPure less) cs = some (CustomSort less cs) := by
  have hwhole : insertionSort_func (Comparator.ofPure less).less 0 cs.length ((), cs)
      = some ((), SliceStable cs less) := by
    unfold insertionSort_func SliceStable
    exact insertionSort_ofPure less _ cs
  have hmake : (Comparator.ofPure less).make cs = some ((), cs) := rfl
  unfold CustomSort.run
  rw [hmake]
  dsimp only
  rw [stable_func_small _ _ hlen, hwhole]
  rfl

end Deck
